import Mathlib

/-!
Verification development for the csvpshmem-viewer trace visualizer.

The Rust source is shallowly embedded:
* `f64` time/duration values are modelled as `ℚ` (exact arithmetic; the
  claims under study are about the algebra of the computations, and every
  constant appearing in the code -- `1e-9`, `5e-10`, `0.5` -- is an exact
  rational);
* `u32`/`u64`/`i32` are modelled as `ℕ`/`ℤ`, with explicit range checks
  where the Rust integer parsers would reject out-of-range input;
* fallible code (`anyhow::Result`, csv/serde deserialization) returns
  `Except LoadError`; a Rust `panic!` raised by `Option::expect` is
  modelled as the distinguished constructor `LoadError.panicErr`, kept
  separate from the error values that `load_from_dir` actually returns
  through `Result`;
* `HashMap` accumulators are modelled as association lists (first match
  wins on lookup, in-place update on insert of an existing key);
* `Vec::sort_by` with the time comparator is a stable sort; it is
  modelled by `List.insertionSort`, which is also stable and therefore
  extensionally identical on the comparator used by the source.
-/

/-! ### Character-list string primitives

Lean's own `String.trim` / `String.splitOn` / `String.startsWith` recurse
on byte positions; the same operations are defined here structurally over
the character list of the string, with the semantics of the Rust
`str::trim`, `str::split('.')`, `starts_with` and `ends_with` used by the
source. -/

/-- `str::split(sep)` semantics: `""` gives `[""]`, separators at the ends
give empty parts. -/
def splitOnChar (sep : Char) : List Char → List (List Char)
  | [] => [[]]
  | c :: cs =>
    if c = sep then [] :: splitOnChar sep cs
    else
      match splitOnChar sep cs with
      | [] => [[c]]
      | h :: t => (c :: h) :: t

/-- `str::trim`: strip leading and trailing whitespace. -/
def trimChars (cs : List Char) : List Char :=
  ((cs.dropWhile Char.isWhitespace).reverse.dropWhile Char.isWhitespace).reverse

/-- A trimmed copy of a string (models `csv::Trim::All` field trimming). -/
def trimStr (s : String) : String :=
  String.mk (trimChars s.data)

/-- `starts_with` on character lists. -/
def hasPrefixChars (p cs : List Char) : Bool :=
  List.isPrefixOf p cs

/-- `ends_with` on character lists. -/
def hasSuffixChars (p cs : List Char) : Bool :=
  List.isPrefixOf p.reverse cs.reverse

/-! ### Numeric field parsing (models `str::parse` / serde number decoding) -/

/-- Digit test and value, for decimal parsing. -/
def digitsVal (cs : List Char) : ℕ :=
  cs.foldl (fun a c => 10 * a + (c.toNat - 48)) 0

def allDigits (cs : List Char) : Bool :=
  cs.all Char.isDigit

/-- Parse a plain unsigned decimal digit sequence. -/
def parseNatChars (cs : List Char) : Option ℕ :=
  if cs.length > 0 && allDigits cs then some (digitsVal cs) else none

/-- Parse a plain unsigned decimal integer (`u64`-style digits). -/
def parseNat (s : String) : Option ℕ :=
  parseNatChars s.data

/-- Model of `str::parse::<u32>` (used on the filename's process-id part):
digits only, rejecting values that overflow 32 bits. -/
def parseU32 (s : String) : Option ℕ :=
  match parseNat s with
  | some n => if n < 2 ^ 32 then some n else none
  | none => none

/-- Model of `u64` field decoding: digits only, rejecting 64-bit overflow. -/
def parseU64 (s : String) : Option ℕ :=
  match parseNat s with
  | some n => if n < 2 ^ 64 then some n else none
  | none => none

/-- Signed decimal integer (optional sign, digits). -/
def parseIntS (s : String) : Option ℤ :=
  match s.data with
  | '-' :: rest => (parseNatChars rest).map (fun n => -(n : ℤ))
  | '+' :: rest => (parseNatChars rest).map (fun n => (n : ℤ))
  | cs => (parseNatChars cs).map (fun n => (n : ℤ))

/-- Model of `i32` field decoding, with the 32-bit range check. -/
def parseI32 (s : String) : Option ℤ :=
  match parseIntS s with
  | some n => if -(2 ^ 31) ≤ n ∧ n < 2 ^ 31 then some n else none
  | none => none

/-- Unsigned decimal float literal: `digits` or `digits.digits`
(at least one digit overall). Models the decimal forms of `f64` parsing
exactly as rationals. -/
def parseUnsignedRat (cs : List Char) : Option ℚ :=
  match splitOnChar '.' cs with
  | [ip] =>
    if ip.length > 0 && allDigits ip then some ((digitsVal ip : ℚ)) else none
  | [ip, fp] =>
    if (ip.length + fp.length > 0) && allDigits ip && allDigits fp then
      some ((digitsVal ip : ℚ) + (digitsVal fp : ℚ) / ((10 ^ fp.length : ℕ) : ℚ))
    else none
  | _ => none

/-- Model of `f64` field decoding (decimal forms, optional sign). -/
def parseRat (s : String) : Option ℚ :=
  match s.data with
  | '-' :: rest => (parseUnsignedRat rest).map (fun q => -q)
  | '+' :: rest => parseUnsignedRat rest
  | cs => parseUnsignedRat cs

/-! ### Data model (src/data.rs) -/

/-- One CSV record, mirroring `RawEvent` with its serde renames:
`Time`, `Function`, `Duration_Sec`, `Target_PE`, `Bytes_RX`, `Bytes_TX`,
`Stacktrace`, optional `Extra`, optional `Symboltrace`. -/
structure RawEvent where
  time : ℚ
  function : String
  duration_sec : ℚ
  target_pe : ℤ
  bytes_rx : ℕ
  bytes_tx : ℕ
  stacktrace : String
  extra : Option String
  symboltrace : Option String
deriving DecidableEq, Repr, Inhabited

/-- `Event`: a `RawEvent` tagged with the source process id. -/
structure Event where
  source_pe : ℕ
  raw : RawEvent
deriving DecidableEq, Repr, Inhabited

/-- `ProfileData`: the Event Store's exposed state. The hostname map is an
association list standing in for the `HashMap<u32, String>`. -/
structure ProfileData where
  events : List Event
  pe_count : ℕ
  pe_hostnames : List (ℕ × String)
  min_time : ℚ
  max_time : ℚ
deriving DecidableEq, Repr

/-- Load-time failure modes. `ioErr` and `schemaErr` model error values
propagated through `anyhow::Result` by the `?` operator; `panicErr` models
a process panic raised by `Option::expect` -- it is NOT a returned error
value, the Rust process aborts instead of surfacing it. -/
inductive LoadError where
  | ioErr : String → LoadError
  | schemaErr : String → LoadError
  | panicErr : String → LoadError
deriving DecidableEq, Repr

/-- `true` exactly when load finished with an error value that
`load_from_dir` actually returns through `Result` (not a panic). -/
def isReportedError (r : Except LoadError ProfileData) : Bool :=
  match r with
  | .error (.ioErr _) => true
  | .error (.schemaErr _) => true
  | _ => false

def exceptOk {ε α : Type} (r : Except ε α) : Bool :=
  match r with
  | .ok _ => true
  | .error _ => false

/-! ### CSV reading (models the `csv` crate with `Trim::All` + serde) -/

/-- A parsed CSV file: header row plus data rows, each a list of fields. -/
structure CsvFile where
  header : List String
  rows : List (List String)
deriving DecidableEq, Repr

/-- A directory entry as produced by `fs::read_dir`: a file name and the
file's tabular content. -/
structure DirEntry where
  name : String
  file : CsvFile
deriving DecidableEq, Repr

/-- Look a field up by (already trimmed) column name. -/
def getField (header row : List String) (colName : String) : Option String :=
  match header.findIdx? (fun h => h = colName) with
  | some i => row.get? i
  | none => none

/-- Required `f64` column: missing column or malformed value is a
deserialization error. -/
def reqRat (header row : List String) (colName : String) : Except String ℚ :=
  match getField header row colName with
  | none => .error ("missing field " ++ colName)
  | some s =>
    match parseRat s with
    | none => .error ("invalid value for " ++ colName)
    | some q => .ok q

/-- Required string column. -/
def reqStr (header row : List String) (colName : String) : Except String String :=
  match getField header row colName with
  | none => .error ("missing field " ++ colName)
  | some s => .ok s

/-- Required `i32` column. -/
def reqI32 (header row : List String) (colName : String) : Except String ℤ :=
  match getField header row colName with
  | none => .error ("missing field " ++ colName)
  | some s =>
    match parseI32 s with
    | none => .error ("invalid value for " ++ colName)
    | some n => .ok n

/-- Required `u64` column. -/
def reqU64 (header row : List String) (colName : String) : Except String ℕ :=
  match getField header row colName with
  | none => .error ("missing field " ++ colName)
  | some s =>
    match parseU64 s with
    | none => .error ("invalid value for " ++ colName)
    | some n => .ok n

/-- Optional string column (`#[serde(default)]` on `Option<String>`): a
missing column or an empty field decodes to `none`, as the csv crate does
for `Option` fields. -/
def optStr (header row : List String) (colName : String) : Option String :=
  match getField header row colName with
  | none => none
  | some s => if s = "" then none else some s

/-- serde deserialization of one `RawEvent` record, checking the required
columns in field-declaration order. -/
def deserializeRawEvent (header row : List String) : Except String RawEvent :=
  match reqRat header row "Time" with
  | .error e => .error e
  | .ok timeV =>
  match reqStr header row "Function" with
  | .error e => .error e
  | .ok fnV =>
  match reqRat header row "Duration_Sec" with
  | .error e => .error e
  | .ok durV =>
  match reqI32 header row "Target_PE" with
  | .error e => .error e
  | .ok tpeV =>
  match reqU64 header row "Bytes_RX" with
  | .error e => .error e
  | .ok rxV =>
  match reqU64 header row "Bytes_TX" with
  | .error e => .error e
  | .ok txV =>
  match reqStr header row "Stacktrace" with
  | .error e => .error e
  | .ok stV =>
    .ok { time := timeV, function := fnV, duration_sec := durV, target_pe := tpeV,
          bytes_rx := rxV, bytes_tx := txV, stacktrace := stV,
          extra := optStr header row "Extra",
          symboltrace := optStr header row "Symboltrace" }

/-- The record loop of `ProfileData::load_file`: each row must have as many
fields as the header (the csv crate's `UnequalLengths` check) and must
deserialize; the first failure aborts the file. -/
def loadFileRows (header : List String) (source_pe : ℕ) :
    List (List String) → Except LoadError (List Event)
  | [] => .ok []
  | row :: rest =>
    if row.length = header.length then
      match deserializeRawEvent header row with
      | .error e => .error (.schemaErr e)
      | .ok raw =>
        match loadFileRows header source_pe rest with
        | .error e => .error e
        | .ok evs => .ok ({ source_pe := source_pe, raw := raw } :: evs)
    else .error (.schemaErr "record length mismatch")

/-- `ProfileData::load_file`: read with `Trim::All` (headers and fields
trimmed), deserialize every record. -/
def loadFile (file : CsvFile) (source_pe : ℕ) : Except LoadError (List Event) :=
  loadFileRows (file.header.map trimStr) source_pe
    (file.rows.map (fun row => row.map trimStr))

/-- The filename filter of `load_from_dir`: name starts with `pperf.`,
ends with `.csv`, splits on `.` into exactly three parts, and the middle
part parses as a `u32` process id. -/
def matchedPE (fname : String) : Option ℕ :=
  if hasPrefixChars "pperf.".data fname.data && hasSuffixChars ".csv".data fname.data then
    match splitOnChar '.' fname.data with
    | [_, mid, _] => parseNatChars mid >>= (fun n => if n < 2 ^ 32 then some n else none)
    | _ => none
  else none

/-- `HashMap::insert` on the hostname map. -/
def insertHost (m : List (ℕ × String)) (k : ℕ) (v : String) : List (ℕ × String) :=
  match m with
  | [] => [(k, v)]
  | (k', v') :: rest => if k' = k then (k, v) :: rest else (k', v') :: insertHost rest k v

/-- The directory-scan loop of `load_from_dir`, carrying the `events`,
`max_pe` and `pe_hostnames` accumulators. A matched file that yields zero
events hits `.expect("at least one event")`; a first event without `Extra`
hits `.expect("hostname to be Extra of first event")`; both are panics. -/
def processEntries :
    List DirEntry → List Event → ℕ → List (ℕ × String) →
      Except LoadError (List Event × ℕ × List (ℕ × String))
  | [], evs, maxPe, hosts => .ok (evs, maxPe, hosts)
  | entry :: rest, evs, maxPe, hosts =>
    match matchedPE entry.name with
    | none => processEntries rest evs maxPe hosts
    | some peId =>
      let maxPe' := if peId > maxPe then peId else maxPe
      match loadFile entry.file peId with
      | .error e => .error e
      | .ok loaded =>
        match loaded.head? with
        | none => .error (.panicErr "at least one event")
        | some firstEv =>
          match firstEv.raw.extra with
          | none => .error (.panicErr "hostname to be Extra of first event")
          | some h => processEntries rest (evs ++ loaded) maxPe' (insertHost hosts peId h)

/-- The sort comparator of `load_from_dir`: non-decreasing event time. -/
def timeLE (a b : Event) : Prop := a.raw.time ≤ b.raw.time

instance : DecidableRel timeLE := fun a b =>
  inferInstanceAs (Decidable (a.raw.time ≤ b.raw.time))

instance : IsTotal Event timeLE := ⟨fun a b => le_total a.raw.time b.raw.time⟩

instance : IsTrans Event timeLE := ⟨fun _ _ _ h1 h2 => le_trans h1 h2⟩

/-- `ProfileData::load_from_dir`: scan the entries, sort the merged events
by time (stable sort, modelled by the stable `insertionSort`), and compute
`min_time` from the first sorted event (default `0`) and `max_time` as a
fold of `max` seeded at `0` over `time + duration_sec`. -/
def loadFromDir (entries : List DirEntry) : Except LoadError ProfileData :=
  match processEntries entries [] 0 [] with
  | .error e => .error e
  | .ok (evs, maxPe, hosts) =>
    let sortedEvs := List.insertionSort timeLE evs
    .ok { events := sortedEvs,
          pe_count := maxPe + 1,
          pe_hostnames := hosts,
          min_time := ((sortedEvs.head?.map (fun e => e.raw.time)).getD 0),
          max_time := (sortedEvs.map (fun e => e.raw.time + e.raw.duration_sec)).foldl max 0 }

/-! ### Bandwidth aggregation (src/app.rs, `ui_bandwidth`) -/

/-- The `comms` map: `(src, dst) -> (tx_total, rx_total)`, as an
association list standing in for `HashMap<(u32, u32), (u64, u64)>`. -/
abbrev Comms := List ((ℕ × ℕ) × (ℕ × ℕ))

/-- `HashMap` lookup with the `or_insert((0,0))` default. -/
def lookupComm (m : Comms) (k : ℕ × ℕ) : ℕ × ℕ :=
  match m with
  | [] => (0, 0)
  | (k', v) :: rest => if k' = k then v else lookupComm rest k

/-- `comms.entry(k).or_insert((0,0)).0 += v`. -/
def addTx (m : Comms) (k : ℕ × ℕ) (v : ℕ) : Comms :=
  match m with
  | [] => [(k, (v, 0))]
  | (k', p) :: rest =>
    if k' = k then (k', (p.1 + v, p.2)) :: rest else (k', p) :: addTx rest k v

/-- `comms.entry(k).or_insert((0,0)).1 += v`. -/
def addRx (m : Comms) (k : ℕ × ℕ) (v : ℕ) : Comms :=
  match m with
  | [] => [(k, (0, v))]
  | (k', p) :: rest =>
    if k' = k then (k', (p.1, p.2 + v)) :: rest else (k', p) :: addRx rest k v

/-- The body of the aggregation loop for one event: a non-negative target
and `src != dst` qualify the event; the tx filter adds `bytes_tx` to the
`(src, dst)` entry's first component, the rx filter adds `bytes_rx` to the
reversed `(dst, src)` entry's second component. -/
def aggStep (showTx showRx : Bool) (m : Comms) (e : Event) : Comms :=
  if 0 ≤ e.raw.target_pe then
    let src := e.source_pe
    let dst := e.raw.target_pe.toNat
    if src ≠ dst then
      let m1 := if showTx && decide (e.raw.bytes_tx > 0) then addTx m (src, dst) e.raw.bytes_tx else m
      if showRx && decide (e.raw.bytes_rx > 0) then addRx m1 (dst, src) e.raw.bytes_rx else m1
    else m
  else m

/-- The aggregation loop of `ui_bandwidth` over a windowed event slice. -/
def aggregate (events : List Event) (showTx showRx : Bool) : Comms :=
  events.foldl (aggStep showTx showRx) []

/-- An event participates in aggregation: non-negative target process and
`source_process != target_process`. -/
def qualifies (e : Event) : Bool :=
  decide (0 ≤ e.raw.target_pe) && decide (e.source_pe ≠ e.raw.target_pe.toNat)

/-- The directed pair key `(source, target)` of an event. -/
def keyOf (e : Event) : ℕ × ℕ := (e.source_pe, e.raw.target_pe.toNat)

/-- Reference sum: total `bytes_tx` of qualifying events with pair key `k`. -/
def txSum (l : List Event) (k : ℕ × ℕ) : ℕ :=
  ((l.filter (fun e => qualifies e && decide (keyOf e = k))).map (fun e => e.raw.bytes_tx)).sum

/-- Reference sum: total `bytes_rx` of qualifying events whose reversed
pair key `(target, source)` is `k`. -/
def rxSum (l : List Event) (k : ℕ × ℕ) : ℕ :=
  ((l.filter (fun e => qualifies e && decide ((keyOf e).swap = k))).map
    (fun e => e.raw.bytes_rx)).sum

/-- Reference sum: total `bytes_tx` over all qualifying events. -/
def txSumAll (l : List Event) : ℕ :=
  ((l.filter qualifies).map (fun e => e.raw.bytes_tx)).sum

/-- Sum of the sent components over all aggregated pairs. -/
def sentTotal (m : Comms) : ℕ := (m.map (fun kv => kv.2.1)).sum

/-! ### Window query (src/app.rs, `ui_bandwidth` lines 106-119) -/

/-- The binary search underlying `slice::partition_point`: on `[lo, hi)`,
narrow with the probe `pred l[mid]`. -/
def ppAux (pred : Event → Bool) (l : List Event) (lo hi : ℕ) : ℕ :=
  if lo < hi then
    let mid := (lo + hi) / 2
    if pred (l.getD mid default) then ppAux pred l (mid + 1) hi else ppAux pred l lo mid
  else lo
termination_by hi - lo
decreasing_by
  · omega
  · omega

/-- `slice::partition_point` over the whole list. -/
def partitionPoint (pred : Event → Bool) (l : List Event) : ℕ :=
  ppAux pred l 0 l.length

/-- The window query of `ui_bandwidth`: `start_idx` by binary search on
`time < center - width/2`, then a forward scan that breaks at the first
event with `time > center + width/2`. -/
def windowSlice (events : List Event) (center width : ℚ) : List Event :=
  let startT := center - width / 2
  let endT := center + width / 2
  let startIdx := partitionPoint (fun e => decide (e.raw.time < startT)) events
  (events.drop startIdx).takeWhile (fun e => ! decide (e.raw.time > endT))

/-! ### Timeline viewport arithmetic (src/app.rs, `ui_timeline`) -/

/-- The time-axis zoom of `ui_timeline` (lines 332-348). `factor` stands
for the positive value `exp(-zoom_delta / 200)`; the theorem below holds
for every rational factor, hence for every zoom delta. Returns the new
`(start, end)` pair, re-centered to a span of `1e-9` when the zoomed span
falls below `1e-9`. -/
def zoomTime (s e anchor factor : ℚ) : ℚ × ℚ :=
  let hoverT := s + anchor * (e - s)
  let s1 := hoverT - (hoverT - s) * factor
  let e1 := hoverT + (e - hoverT) * factor
  if e1 - s1 < 1 / 1000000000 then
    let c := (s1 + e1) / 2
    (c - 1 / 2000000000, c + 1 / 2000000000)
  else (s1, e1)

/-- `time_to_x`: affine map from time to pixel x. -/
def timeToX (s e minX width t : ℚ) : ℚ :=
  minX + (t - s) / (e - s) * width

/-- `x_to_time`: affine map from pixel x back to time. -/
def xToTime (s e minX width x : ℚ) : ℚ :=
  s + (x - minX) / width * (e - s)

/-! ### Playback tick (src/app.rs, `update` lines 696-704) -/

/-- One playback tick: when playing, advance the cursor by `dt * speed`
and, when the new cursor exceeds `max_time` strictly, clamp it to
`max_time` and stop. Returns `(playing, cursor_time)`. -/
def playbackTick (playing : Bool) (cursor dt speed maxT : ℚ) : Bool × ℚ :=
  if playing then
    let c := cursor + dt * speed
    if c > maxT then (false, maxT) else (playing, c)
  else (playing, cursor)

/-! ### Color assignment (src/app.rs, `generate_color`) -/

/-- `u8::saturating_add`. -/
def satAdd8 (a b : ℕ) : ℕ := min (a + b) 255

/-- `generate_color`, as a function of the 64-bit hash value. The Rust
code hashes the function name with `DefaultHasher::new()` (SipHash-1-3
with fixed zero keys), a pure deterministic function of the string, and
then extracts bytes 2, 1, 0 of the hash and remaps each channel `c` to
`c/2 + 128` (with a saturating add). The hash value is the input here;
every downstream step is embedded exactly. -/
def generate_color (hash : ℕ) : ℕ × ℕ × ℕ :=
  let r := (hash >>> 16) % 256
  let g := (hash >>> 8) % 256
  let b := hash % 256
  (satAdd8 (r / 2) 128, satAdd8 (g / 2) 128, satAdd8 (b / 2) 128)

/-! ### Decidable equality for load results -/

instance {ε α : Type} [DecidableEq ε] [DecidableEq α] : DecidableEq (Except ε α) := fun a b =>
  match a, b with
  | .ok x, .ok y =>
    if h : x = y then isTrue (by rw [h]) else isFalse (by intro hc; cases hc; exact h rfl)
  | .error x, .error y =>
    if h : x = y then isTrue (by rw [h]) else isFalse (by intro hc; cases hc; exact h rfl)
  | .ok _, .error _ => isFalse (by intro hc; cases hc)
  | .error _, .ok _ => isFalse (by intro hc; cases hc)

/-! ### Concrete inputs for witnesses and counterexamples -/

/-- The directed-schema header of the per-process CSV files. -/
def csvHeaderFull : List String :=
  ["Time", "Function", "Duration_Sec", "Target_PE", "Bytes_RX", "Bytes_TX", "Stacktrace", "Extra"]

/-- A matched file with a header but zero records. -/
def emptyCsv : CsvFile := { header := csvHeaderFull, rows := [] }

/-- A matched file whose only record lacks the `Extra` column. -/
def noHostCsv : CsvFile :=
  { header := ["Time", "Function", "Duration_Sec", "Target_PE", "Bytes_RX", "Bytes_TX", "Stacktrace"],
    rows := [["0.5", "foo", "0.1", "1", "500", "0", "main"]] }

/-- A file in the legacy undirected schema: `Size_Bytes` instead of
`Bytes_RX`/`Bytes_TX`. -/
def legacyCsv : CsvFile :=
  { header := ["Time", "Function", "Duration_Sec", "Target_PE", "Size_Bytes", "Stacktrace"],
    rows := [["0.5", "foo", "0.1", "1", "500", "main"]] }

/-- A non-matching directory entry. -/
def readmeEntry : DirEntry := { name := "README.md", file := { header := [], rows := [] } }

/-- A directory with one well-formed matched file whose two records arrive
out of time order. -/
def sampleDir : List DirEntry :=
  [ { name := "notes.txt", file := { header := [], rows := [] } },
    { name := "pperf.1.csv",
      file := { header := csvHeaderFull,
                rows := [ ["2.0", "b", "0.5", "-1", "0", "0", "st", "host1"],
                          ["1.0", "a", "0.25", "0", "3", "4", "st", ""] ] } } ]

/-- The dataset `load_from_dir` produces for `sampleDir`. -/
def samplePD : ProfileData :=
  { events :=
      [ { source_pe := 1,
          raw := { time := 1, function := "a", duration_sec := 1/4, target_pe := 0,
                   bytes_rx := 3, bytes_tx := 4, stacktrace := "st",
                   extra := none, symboltrace := none } },
        { source_pe := 1,
          raw := { time := 2, function := "b", duration_sec := 1/2, target_pe := -1,
                   bytes_rx := 0, bytes_tx := 0, stacktrace := "st",
                   extra := some "host1", symboltrace := none } } ],
    pe_count := 2, pe_hostnames := [(1, "host1")], min_time := 1, max_time := 5/2 }

/-- A directory whose only file holds one event that ends before time `0`
(`Time = -2.0`, `Duration_Sec = 1.0`). -/
def negDir : List DirEntry :=
  [ { name := "pperf.0.csv",
      file := { header := csvHeaderFull,
                rows := [["-2.0", "init", "1.0", "-1", "0", "0", "st", "h"]] } } ]

/-- The dataset `load_from_dir` produces for `negDir`: note `max_time = 0`
even though the only event ends at `-1`. -/
def negPD : ProfileData :=
  { events :=
      [ { source_pe := 0,
          raw := { time := -2, function := "init", duration_sec := 1, target_pe := -1,
                   bytes_rx := 0, bytes_tx := 0, stacktrace := "st",
                   extra := some "h", symboltrace := none } } ],
    pe_count := 1, pe_hostnames := [(0, "h")], min_time := -2, max_time := 0 }

/-- Three events exercising the aggregation filters: a qualifying
communication, a self-loop, and a non-communication event. -/
def aggEv1 : Event :=
  { source_pe := 0,
    raw := { time := 1, function := "put", duration_sec := 0, target_pe := 1,
             bytes_rx := 200, bytes_tx := 500, stacktrace := "s", extra := none,
             symboltrace := none } }

def aggEv2 : Event :=
  { source_pe := 2,
    raw := { time := 1, function := "loop", duration_sec := 0, target_pe := 2,
             bytes_rx := 7, bytes_tx := 9, stacktrace := "s", extra := none,
             symboltrace := none } }

def aggEv3 : Event :=
  { source_pe := 1,
    raw := { time := 1, function := "calc", duration_sec := 0, target_pe := -1,
             bytes_rx := 5, bytes_tx := 6, stacktrace := "s", extra := none,
             symboltrace := none } }

def aggEvents : List Event := [aggEv1, aggEv2, aggEv3]

/-- A small event list sorted by time, for the window-query witness. -/
def winEvent (t : ℚ) : Event :=
  { source_pe := 0,
    raw := { time := t, function := "f", duration_sec := 0, target_pe := -1,
             bytes_rx := 0, bytes_tx := 0, stacktrace := "s", extra := none,
             symboltrace := none } }

def winEvents : List Event :=
  [winEvent 0, winEvent 1, winEvent (3/2), winEvent 2, winEvent 3]

/-! ## Claim theorems -/

/-- C6: for every state `[start, end]` and every anchor and zoom factor
(the factor models `exp(-delta/200)`, and the statement holds for every
rational factor, hence for every delta), the span after `zoom_time` is at
least the minimal span `1e-9`; whenever the zoomed span would fall below
`1e-9` the range is re-centered to a span of exactly `1e-9` around the
midpoint; consequently `end' - start'` is nonzero and the later ratio
computations dividing by it never divide by zero. -/
theorem zoomTime_min_span (s e anchor factor : ℚ) :
    1 / 1000000000 ≤ (zoomTime s e anchor factor).2 - (zoomTime s e anchor factor).1 ∧
    (zoomTime s e anchor factor).1 ≠ (zoomTime s e anchor factor).2 ∧
    ((let hoverT := s + anchor * (e - s)
      (hoverT + (e - hoverT) * factor) - (hoverT - (hoverT - s) * factor) < 1 / 1000000000) →
      (zoomTime s e anchor factor).2 - (zoomTime s e anchor factor).1 = 1 / 1000000000) := by
  unfold zoomTime
  dsimp only
  split
  all_goals dsimp only
  · refine ⟨by ring_nf; norm_num, ?_, fun _ => by ring_nf⟩
    intro heq
    have hpos : (0 : ℚ) < 1 / 2000000000 := by norm_num
    linarith [heq]
  · rename_i h
    push_neg at h
    refine ⟨h, ?_, ?_⟩
    · intro heq
      linarith [h, heq]
    · intro hlt
      exact absurd hlt (not_lt.mpr h)

/-- C7: for every viewport with `start < end` and positive content width,
and every time `t` in `[start, end]`, the affine maps `time_to_x` and
`x_to_time` are exact inverses: `x_to_time (time_to_x t) = t`. -/
theorem xToTime_timeToX (s e minX width t : ℚ) (hse : s < e) (hw : 0 < width)
    (_hts : s ≤ t) (_hte : t ≤ e) :
    xToTime s e minX width (timeToX s e minX width t) = t := by
  unfold timeToX xToTime
  have h1 : e - s ≠ 0 := by linarith
  have h2 : width ≠ 0 := by linarith
  field_simp
  ring

/-- Witness for C7 at `s = 0`, `e = 10`, `minX = 3`, `width = 100`,
`t = 7`. -/
theorem xToTime_timeToX_witness :
    xToTime 0 10 3 100 (timeToX 0 10 3 100 7) = 7 :=
  xToTime_timeToX 0 10 3 100 7 (by norm_num) (by norm_num) (by norm_num) (by norm_num)

/-- C8 counterexample: with `min_time = 0`, `max_time = 1/5`, a playing
tick from `cursor_time = 0` with `speed = 2` and `dt = 1/10` lands the
cursor exactly on `max_time`. The new cursor is not less than `max_time`,
so the claim requires the state to transition to `Stopped`; the code's
strict `cursor_time > max_time` test keeps it `Playing`. -/
theorem playbackTick_boundary_counterexample :
    playbackTick true 0 (1/10) 2 (1/5) = (true, 1/5) ∧ ¬ ((1 : ℚ)/5 < 1/5) := by
  constructor
  · unfold playbackTick
    norm_num
  · exact lt_irrefl _

/-- C8 (amended): a playing tick advances the cursor by `dt * speed`; the
result is that value clamped above by `max_time` (so the cursor never
exceeds `max_time` at the end of a tick), and the state remains `Playing`
exactly when the advanced cursor is at most `max_time` -- it transitions
to `Stopped` only when the advanced cursor strictly exceeds `max_time`.
In particular from `cursor_time = min_time` with `speed = 2` and
`dt = 1/10` the new cursor is `min_time + 1/5` whenever that does not
exceed `max_time`. -/
theorem playbackTick_spec (cursor dt speed maxT : ℚ) :
    (playbackTick true cursor dt speed maxT).2 = min (cursor + dt * speed) maxT ∧
    (playbackTick true cursor dt speed maxT).2 ≤ maxT ∧
    ((playbackTick true cursor dt speed maxT).1 = true ↔ cursor + dt * speed ≤ maxT) := by
  by_cases hc : cursor + dt * speed > maxT
  · have hval : playbackTick true cursor dt speed maxT = (false, maxT) := by
      unfold playbackTick
      rw [if_pos rfl]
      dsimp only
      rw [if_pos hc]
    rw [hval]
    refine ⟨(min_eq_right (le_of_lt hc)).symm, le_refl _, ?_⟩
    simp only [Bool.false_eq_true, false_iff, not_le]
    exact hc
  · have hval : playbackTick true cursor dt speed maxT = (true, cursor + dt * speed) := by
      unfold playbackTick
      rw [if_pos rfl]
      dsimp only
      rw [if_neg hc]
    rw [hval]
    push_neg at hc
    exact ⟨(min_eq_left hc).symm, hc, by simp [hc]⟩

/-- C9: the color assignment is a pure function of the 64-bit name hash
(`DefaultHasher::new()` is SipHash-1-3 with fixed zero keys, hence itself
a deterministic function of the name within and across runs): equal
hashes yield equal colors, and after the remap `c' = c/2 + 128` every
channel lies in `[128, 255]`. -/
theorem generate_color_spec (hash hash2 : ℕ) (heq : hash = hash2) :
    generate_color hash = generate_color hash2 ∧
    128 ≤ (generate_color hash).1 ∧ (generate_color hash).1 ≤ 255 ∧
    128 ≤ (generate_color hash).2.1 ∧ (generate_color hash).2.1 ≤ 255 ∧
    128 ≤ (generate_color hash).2.2 ∧ (generate_color hash).2.2 ≤ 255 := by
  subst heq
  refine ⟨rfl, ?_, ?_, ?_, ?_, ?_, ?_⟩
  all_goals
    unfold generate_color satAdd8
    dsimp only
    omega

/-- Witness for C9 at the hash value `81985529216486895`. -/
theorem generate_color_spec_witness :
    generate_color 81985529216486895 = generate_color 81985529216486895 ∧
    128 ≤ (generate_color 81985529216486895).1 ∧
    (generate_color 81985529216486895).1 ≤ 255 ∧
    128 ≤ (generate_color 81985529216486895).2.1 ∧
    (generate_color 81985529216486895).2.1 ≤ 255 ∧
    128 ≤ (generate_color 81985529216486895).2.2 ∧
    (generate_color 81985529216486895).2.2 ≤ 255 :=
  generate_color_spec 81985529216486895 81985529216486895 rfl

/-- Entries whose names do not match the `pperf.<id>.csv` pattern are
skipped and leave the accumulators untouched. -/
theorem processEntries_skip (pre : List DirEntry)
    (hpre : ∀ f ∈ pre, matchedPE f.name = none) (rest : List DirEntry)
    (evs : List Event) (maxPe : ℕ) (hosts : List (ℕ × String)) :
    processEntries (pre ++ rest) evs maxPe hosts = processEntries rest evs maxPe hosts := by
  induction pre with
  | nil => rfl
  | cons a pre' ih =>
    have ha : matchedPE a.name = none := hpre a (by simp)
    have hrest : ∀ f ∈ pre', matchedPE f.name = none := fun f hf => hpre f (by simp [hf])
    simp only [List.cons_append, processEntries, ha]
    exact ih hrest

/-- C10: if every entry of the directory fails the `pperf.<id>.csv` name
pattern, load succeeds with an empty event sequence, process count `1`,
an empty hostname map and `min_time = max_time = 0`. -/
theorem loadFromDir_no_match (entries : List DirEntry)
    (h : ∀ f ∈ entries, matchedPE f.name = none) :
    loadFromDir entries =
      .ok { events := [], pe_count := 1, pe_hostnames := [], min_time := 0, max_time := 0 } := by
  unfold loadFromDir
  have hskip := processEntries_skip entries h [] [] 0 []
  rw [List.append_nil] at hskip
  rw [hskip]
  rfl

/-- Witness for C10: a directory holding a non-tabular file, a name with
four dot-separated parts, a wrong extension, a non-numeric id, and an id
overflowing `u32`. -/
theorem loadFromDir_no_match_witness :
    loadFromDir
      [ readmeEntry,
        { name := "pperf.1.2.csv", file := emptyCsv },
        { name := "pperf.12.txt", file := emptyCsv },
        { name := "pperf.x.csv", file := emptyCsv },
        { name := "pperf.4294967296.csv", file := emptyCsv } ] =
      .ok { events := [], pe_count := 1, pe_hostnames := [], min_time := 0, max_time := 0 } :=
  loadFromDir_no_match _ (by decide)

/-- C1 counterexample: a matched file with zero records makes the load hit
`.expect("at least one event")` -- a panic, not a returned `EmptyFile`
error value -- and a matched file whose first record lacks the hostname
field makes it hit `.expect("hostname to be Extra of first event")` --
again a panic, not a returned `MissingHostname` error value. In both
cases `isReportedError` is `false`: no error value reaches the
presentation layer, contradicting the claim's "reported error value
surfaced to the presentation layer (not a crash)". -/
theorem loadFromDir_panic_counterexample :
    loadFromDir [{ name := "pperf.0.csv", file := emptyCsv }] =
      .error (.panicErr "at least one event") ∧
    isReportedError (loadFromDir [{ name := "pperf.0.csv", file := emptyCsv }]) = false ∧
    loadFromDir [{ name := "pperf.0.csv", file := noHostCsv }] =
      .error (.panicErr "hostname to be Extra of first event") ∧
    isReportedError (loadFromDir [{ name := "pperf.0.csv", file := noHostCsv }]) = false := by
  refine ⟨by decide, by decide, ?_, ?_⟩
  all_goals decide

/-- C1 (amended): in a directory whose earlier entries are all unmatched,
a matched file with zero records aborts the load with the panic
`at least one event`, and a matched file whose first record lacks the
`extra` hostname field aborts it with the panic
`hostname to be Extra of first event`; the load crashes instead of
returning an error value, and no partial dataset is produced (no
`ProfileData` is constructed at all). -/
theorem loadFromDir_panic_spec (pre post : List DirEntry) (entry : DirEntry) (pe : ℕ)
    (ev : Event) (rest : List Event)
    (hpre : ∀ f ∈ pre, matchedPE f.name = none)
    (hm : matchedPE entry.name = some pe) :
    (loadFile entry.file pe = .ok [] →
      loadFromDir (pre ++ entry :: post) = .error (.panicErr "at least one event")) ∧
    (loadFile entry.file pe = .ok (ev :: rest) → ev.raw.extra = none →
      loadFromDir (pre ++ entry :: post) = .error (.panicErr "hostname to be Extra of first event")) := by
  constructor
  · intro hload
    unfold loadFromDir
    rw [processEntries_skip pre hpre]
    simp only [processEntries, hm, hload]
    rfl
  · intro hload hextra
    unfold loadFromDir
    rw [processEntries_skip pre hpre]
    simp only [processEntries, hm, hload, List.head?, hextra]

/-- Witness for C1 (amended) on a directory holding `README.md` followed
by the matched file whose only record lacks the `Extra` column. -/
theorem loadFromDir_panic_spec_witness :
    (loadFile noHostCsv 0 = .ok [] →
      loadFromDir [readmeEntry, { name := "pperf.0.csv", file := noHostCsv }] =
        .error (.panicErr "at least one event")) ∧
    (loadFile noHostCsv 0 =
        .ok ({ source_pe := 0,
               raw := { time := 1/2, function := "foo", duration_sec := 1/10, target_pe := 1,
                        bytes_rx := 500, bytes_tx := 0, stacktrace := "main",
                        extra := none, symboltrace := none } } :: []) →
      ({ source_pe := 0,
         raw := { time := 1/2, function := "foo", duration_sec := 1/10, target_pe := 1,
                  bytes_rx := 500, bytes_tx := 0, stacktrace := "main",
                  extra := none, symboltrace := none } } : Event).raw.extra = none →
      loadFromDir [readmeEntry, { name := "pperf.0.csv", file := noHostCsv }] =
        .error (.panicErr "hostname to be Extra of first event")) :=
  loadFromDir_panic_spec [readmeEntry] [] { name := "pperf.0.csv", file := noHostCsv } 0
    _ [] (by decide) (by decide)

/-- A record cannot deserialize when the `Bytes_RX` column is absent:
every required-field check either fails earlier or hits the missing
`Bytes_RX` lookup. -/
theorem deserializeRawEvent_no_bytes_rx (header row : List String)
    (h : getField header row "Bytes_RX" = none) :
    exceptOk (deserializeRawEvent header row) = false := by
  unfold deserializeRawEvent
  have hu : reqU64 header row "Bytes_RX" = .error ("missing field " ++ "Bytes_RX") := by
    unfold reqU64
    rw [h]
  rw [hu]
  repeat' split
  all_goals simp_all [exceptOk]

/-- C2 (amended): only the directed schema is supported. A file whose
header does not supply a `Bytes_RX` column -- in particular the legacy
undirected schema that supplies `Size_Bytes` instead of
`Bytes_RX`/`Bytes_TX` -- fails `load_file` on its first record with a
schema (deserialization) error rather than parsing into events. -/
theorem loadFile_requires_bytes_rx (f : CsvFile) (pe : ℕ)
    (hcol : "Bytes_RX" ∉ f.header.map trimStr) (hrows : f.rows ≠ []) :
    exceptOk (loadFile f pe) = false := by
  obtain ⟨r, rest, hr⟩ := List.exists_cons_of_ne_nil hrows
  have hg : getField (f.header.map trimStr) (r.map trimStr) "Bytes_RX" = none := by
    unfold getField
    have hidx : (f.header.map trimStr).findIdx? (fun h => h = "Bytes_RX") = none := by
      rw [List.findIdx?_eq_none_iff]
      intro x hx
      simp only [decide_eq_false_iff_not]
      intro heq
      exact hcol (heq ▸ hx)
    rw [hidx]
  have hdes := deserializeRawEvent_no_bytes_rx _ _ hg
  unfold loadFile
  rw [hr]
  simp only [List.map_cons]
  unfold loadFileRows
  split
  · cases hdv : deserializeRawEvent (f.header.map trimStr) (r.map trimStr) with
    | error e => rfl
    | ok v =>
      rw [hdv] at hdes
      exact absurd hdes (by simp [exceptOk])
  · rfl

/-- C2 counterexample: a matched file in the legacy `Size_Bytes` schema
does not parse into events -- the load fails with the serde
missing-field error for `Bytes_RX`. -/
theorem loadFromDir_legacy_counterexample :
    loadFromDir [{ name := "pperf.0.csv", file := legacyCsv }] =
      .error (.schemaErr "missing field Bytes_RX") := by
  decide

/-- Witness for C2 (amended) on the concrete legacy-schema file. -/
theorem loadFile_requires_bytes_rx_witness :
    exceptOk (loadFile legacyCsv 0) = false :=
  loadFile_requires_bytes_rx legacyCsv 0 (by decide) (by decide)

/-- Effect of `addTx` on a lookup. -/
theorem lookupComm_addTx (m : Comms) (k k' : ℕ × ℕ) (v : ℕ) :
    lookupComm (addTx m k v) k' =
      if k' = k then ((lookupComm m k').1 + v, (lookupComm m k').2)
      else lookupComm m k' := by
  induction m with
  | nil =>
    by_cases h : k' = k
    · subst h
      simp [addTx, lookupComm]
    · have h2 : ¬ k = k' := fun hh => h (Eq.symm hh)
      simp [addTx, lookupComm, h, h2]
  | cons hd tl ih =>
    obtain ⟨kh, p⟩ := hd
    by_cases h1 : kh = k
    · subst h1
      by_cases h2 : kh = k'
      · subst h2
        simp [addTx, lookupComm]
      · have h3 : ¬ k' = kh := fun hh => h2 (Eq.symm hh)
        simp [addTx, lookupComm, h2, h3]
    · by_cases h2 : kh = k'
      · subst h2
        simp [addTx, lookupComm, h1]
      · simp [addTx, lookupComm, h1, h2, ih]

/-- Effect of `addRx` on a lookup. -/
theorem lookupComm_addRx (m : Comms) (k k' : ℕ × ℕ) (v : ℕ) :
    lookupComm (addRx m k v) k' =
      if k' = k then ((lookupComm m k').1, (lookupComm m k').2 + v)
      else lookupComm m k' := by
  induction m with
  | nil =>
    by_cases h : k' = k
    · subst h
      simp [addRx, lookupComm]
    · have h2 : ¬ k = k' := fun hh => h (Eq.symm hh)
      simp [addRx, lookupComm, h, h2]
  | cons hd tl ih =>
    obtain ⟨kh, p⟩ := hd
    by_cases h1 : kh = k
    · subst h1
      by_cases h2 : kh = k'
      · subst h2
        simp [addRx, lookupComm]
      · have h3 : ¬ k' = kh := fun hh => h2 (Eq.symm hh)
        simp [addRx, lookupComm, h2, h3]
    · by_cases h2 : kh = k'
      · subst h2
        simp [addRx, lookupComm, h1]
      · simp [addRx, lookupComm, h1, h2, ih]

/-- `addTx` raises the total sent bytes by exactly `v`. -/
theorem sentTotal_addTx (m : Comms) (k : ℕ × ℕ) (v : ℕ) :
    sentTotal (addTx m k v) = sentTotal m + v := by
  induction m with
  | nil => simp [addTx, sentTotal]
  | cons hd tl ih =>
    obtain ⟨kh, p⟩ := hd
    by_cases h : kh = k
    · simp [addTx, sentTotal, h]
      omega
    · simp [addTx, sentTotal, h] at ih ⊢
      omega

/-- `addRx` leaves the total sent bytes unchanged. -/
theorem sentTotal_addRx (m : Comms) (k : ℕ × ℕ) (v : ℕ) :
    sentTotal (addRx m k v) = sentTotal m := by
  induction m with
  | nil => simp [addRx, sentTotal]
  | cons hd tl ih =>
    obtain ⟨kh, p⟩ := hd
    by_cases h : kh = k
    · simp [addRx, sentTotal, h]
    · simp [addRx, sentTotal, h] at ih ⊢
      omega

/-- Effect of one aggregation step on a lookup: a qualifying event adds
its `bytes_tx` under `(src, dst)` when the tx filter is on, and its
`bytes_rx` under `(dst, src)` when the rx filter is on; nothing else
changes. -/
theorem lookupComm_aggStep (tx rx : Bool) (m : Comms) (e : Event) (k : ℕ × ℕ) :
    lookupComm (aggStep tx rx m e) k =
      ((lookupComm m k).1 +
        (if tx = true ∧ qualifies e = true ∧ keyOf e = k then e.raw.bytes_tx else 0),
       (lookupComm m k).2 +
        (if rx = true ∧ qualifies e = true ∧ (keyOf e).swap = k then e.raw.bytes_rx else 0)) := by
  unfold aggStep
  by_cases h1 : 0 ≤ e.raw.target_pe
  · rw [if_pos h1]
    by_cases h2 : e.source_pe ≠ e.raw.target_pe.toNat
    · rw [if_pos h2]
      have hq : qualifies e = true := by simp [qualifies, h1, h2]
      have hm1 : ∀ m' : Comms,
          lookupComm (if tx && decide (e.raw.bytes_tx > 0) then
              addTx m' (e.source_pe, e.raw.target_pe.toNat) e.raw.bytes_tx else m') k =
            ((lookupComm m' k).1 +
              (if tx = true ∧ keyOf e = k then e.raw.bytes_tx else 0),
             (lookupComm m' k).2) := by
        intro m'
        cases htx : (tx && decide (e.raw.bytes_tx > 0)) with
        | true =>
          simp only [Bool.and_eq_true, decide_eq_true_eq] at htx
          by_cases hk : k = (e.source_pe, e.raw.target_pe.toNat)
          · subst hk
            simp [lookupComm_addTx, keyOf, htx.1]
          · have hk2 : ¬ (keyOf e = k) := fun hh => hk (Eq.symm hh)
            simp [lookupComm_addTx, hk, hk2]
        | false =>
          rcases Bool.eq_false_or_eq_true tx with htxb | htxb
          · have hz : e.raw.bytes_tx = 0 := by
              rw [htxb, Bool.true_and] at htx
              have h0 := of_decide_eq_false htx
              omega
            simp [hz]
          · simp [htxb]
      have hm2 : ∀ m' : Comms,
          lookupComm (if rx && decide (e.raw.bytes_rx > 0) then
              addRx m' (e.raw.target_pe.toNat, e.source_pe) e.raw.bytes_rx else m') k =
            ((lookupComm m' k).1,
             (lookupComm m' k).2 +
              (if rx = true ∧ (keyOf e).swap = k then e.raw.bytes_rx else 0)) := by
        intro m'
        cases hrx : (rx && decide (e.raw.bytes_rx > 0)) with
        | true =>
          simp only [Bool.and_eq_true, decide_eq_true_eq] at hrx
          by_cases hk : k = (e.raw.target_pe.toNat, e.source_pe)
          · subst hk
            simp [lookupComm_addRx, keyOf, Prod.swap, hrx.1]
          · have hk2 : ¬ ((keyOf e).swap = k) := fun hh => hk (Eq.symm hh)
            simp [lookupComm_addRx, hk, hk2]
        | false =>
          rcases Bool.eq_false_or_eq_true rx with hrxb | hrxb
          · have hz : e.raw.bytes_rx = 0 := by
              rw [hrxb, Bool.true_and] at hrx
              have h0 := of_decide_eq_false hrx
              omega
            simp [hz]
          · simp [hrxb]
      rw [hm2, hm1]
      simp [hq]
    · rw [if_neg h2]
      have hq : qualifies e = false := by
        simp only [ne_eq, not_not] at h2
        simp [qualifies, h2]
      simp [hq]
  · rw [if_neg h1]
    have hq : qualifies e = false := by
      simp [qualifies, h1]
    simp [hq]

/-- One aggregation step adds `bytes_tx` to the total sent bytes exactly
for qualifying events with the tx filter on. -/
theorem sentTotal_aggStep (tx rx : Bool) (m : Comms) (e : Event) :
    sentTotal (aggStep tx rx m e) =
      sentTotal m + (if tx = true ∧ qualifies e = true then e.raw.bytes_tx else 0) := by
  unfold aggStep
  by_cases h1 : 0 ≤ e.raw.target_pe
  · rw [if_pos h1]
    by_cases h2 : e.source_pe ≠ e.raw.target_pe.toNat
    · rw [if_pos h2]
      have hq : qualifies e = true := by simp [qualifies, h1, h2]
      have hstep : ∀ m' : Comms,
          sentTotal (if rx && decide (e.raw.bytes_rx > 0) then
              addRx m' (e.raw.target_pe.toNat, e.source_pe) e.raw.bytes_rx else m') =
            sentTotal m' := by
        intro m'
        cases hrx : (rx && decide (e.raw.bytes_rx > 0)) with
        | true => simp [sentTotal_addRx]
        | false => simp
      rw [hstep]
      cases htx : (tx && decide (e.raw.bytes_tx > 0)) with
      | true =>
        simp only [Bool.and_eq_true, decide_eq_true_eq] at htx
        simp [sentTotal_addTx, hq, htx.1]
      | false =>
        rcases Bool.eq_false_or_eq_true tx with htxb | htxb
        · have hz : e.raw.bytes_tx = 0 := by
            rw [htxb, Bool.true_and] at htx
            have h0 := of_decide_eq_false htx
            omega
          simp [hz]
        · simp [htxb]
    · rw [if_neg h2]
      have hq : qualifies e = false := by
        simp only [ne_eq, not_not] at h2
        simp [qualifies, h2]
      simp [hq]
  · rw [if_neg h1]
    have hq : qualifies e = false := by
      simp [qualifies, h1]
    simp [hq]

/-- The aggregation fold, characterised per pair key: the sent component
of key `k` is the sum of `bytes_tx` over qualifying events with pair key
`k` (when the tx filter is on), and the received component is the sum of
`bytes_rx` over qualifying events with reversed pair key `k` (when the rx
filter is on). -/
theorem aggregate_lookup (tx rx : Bool) (l : List Event) (m : Comms) (k : ℕ × ℕ) :
    lookupComm (List.foldl (aggStep tx rx) m l) k =
      ((lookupComm m k).1 + (if tx = true then txSum l k else 0),
       (lookupComm m k).2 + (if rx = true then rxSum l k else 0)) := by
  induction l generalizing m with
  | nil => simp [txSum, rxSum]
  | cons e l2 ih =>
    simp only [List.foldl_cons]
    rw [ih, lookupComm_aggStep]
    have htS : txSum (e :: l2) k =
        (if qualifies e = true ∧ keyOf e = k then e.raw.bytes_tx else 0) + txSum l2 k := by
      unfold txSum
      rw [List.filter_cons]
      by_cases hB : (qualifies e && decide (keyOf e = k)) = true
      · have hp : qualifies e = true ∧ keyOf e = k := by
          simpa [Bool.and_eq_true, decide_eq_true_eq] using hB
        rw [if_pos hB, if_pos hp]
        simp
      · have hp : ¬ (qualifies e = true ∧ keyOf e = k) := by
          intro hc
          exact hB (by simp [hc.1, hc.2])
        rw [if_neg hB, if_neg hp]
        simp
    have hrS : rxSum (e :: l2) k =
        (if qualifies e = true ∧ (keyOf e).swap = k then e.raw.bytes_rx else 0) + rxSum l2 k := by
      unfold rxSum
      rw [List.filter_cons]
      by_cases hB : (qualifies e && decide ((keyOf e).swap = k)) = true
      · have hp : qualifies e = true ∧ (keyOf e).swap = k := by
          simpa [Bool.and_eq_true, decide_eq_true_eq] using hB
        rw [if_pos hB, if_pos hp]
        simp
      · have hp : ¬ (qualifies e = true ∧ (keyOf e).swap = k) := by
          intro hc
          exact hB (by simp [hc.1, hc.2])
        rw [if_neg hB, if_neg hp]
        simp
    rw [htS, hrS]
    rcases Bool.eq_false_or_eq_true tx with htxb | htxb <;>
      rcases Bool.eq_false_or_eq_true rx with hrxb | hrxb <;>
      by_cases hQT : qualifies e = true ∧ keyOf e = k <;>
      by_cases hQR : qualifies e = true ∧ (keyOf e).swap = k <;>
      simp [htxb, hrxb, hQT, hQR] <;>
      omega

/-- The aggregation fold preserves the sum law for sent bytes: the total
over all pairs grows by `bytes_tx` of each qualifying event when the tx
filter is on. -/
theorem aggregate_sent (tx rx : Bool) (l : List Event) (m : Comms) :
    sentTotal (List.foldl (aggStep tx rx) m l) =
      sentTotal m + (if tx = true then txSumAll l else 0) := by
  induction l generalizing m with
  | nil => simp [txSumAll]
  | cons e l2 ih =>
    simp only [List.foldl_cons]
    rw [ih, sentTotal_aggStep]
    have htS : txSumAll (e :: l2) =
        (if qualifies e = true then e.raw.bytes_tx else 0) + txSumAll l2 := by
      unfold txSumAll
      rw [List.filter_cons]
      by_cases hB : qualifies e = true
      · rw [if_pos hB, if_pos hB]
        simp
      · rw [if_neg hB, if_neg hB]
        simp
    rw [htS]
    rcases Bool.eq_false_or_eq_true tx with htxb | htxb <;>
      by_cases hq : qualifies e = true <;>
      (simp [htxb, hq]; try omega)

/-- C3: over any windowed event slice, only events with a non-negative
target process and `source != target` contribute; with the tx filter on,
each such event's `bytes_tx` accumulates into the sent component of pair
key `(source, target)`; with the rx filter on, its `bytes_rx` accumulates
into the received component of the reversed key `(target, source)`; and
with the tx filter on, the sum of sent over all pairs equals the sum of
`bytes_tx` over the qualifying events of the slice. -/
theorem aggregate_spec (l : List Event) (tx rx : Bool) (k : ℕ × ℕ) :
    (tx = true → (lookupComm (aggregate l tx rx) k).1 = txSum l k) ∧
    (rx = true → (lookupComm (aggregate l tx rx) k).2 = rxSum l k) ∧
    (tx = true → sentTotal (aggregate l tx rx) = txSumAll l) := by
  unfold aggregate
  refine ⟨?_, ?_, ?_⟩
  · intro h
    rw [aggregate_lookup]
    simp [h, lookupComm]
  · intro h
    rw [aggregate_lookup]
    simp [h, lookupComm]
  · intro h
    rw [aggregate_sent]
    simp [h, sentTotal]

/-- Witness for C3 on a three-event slice (a qualifying communication, a
self-loop, a non-communication event) with both filters on and pair key
`(0, 1)`. -/
theorem aggregate_spec_witness :
    (lookupComm (aggregate aggEvents true true) (0, 1)).1 = txSum aggEvents (0, 1) ∧
    (lookupComm (aggregate aggEvents true true) (0, 1)).2 = rxSum aggEvents (0, 1) ∧
    sentTotal (aggregate aggEvents true true) = txSumAll aggEvents :=
  ⟨(aggregate_spec aggEvents true true (0, 1)).1 rfl,
   (aggregate_spec aggEvents true true (0, 1)).2.1 rfl,
   (aggregate_spec aggEvents true true (0, 1)).2.2 rfl⟩

/-- The seed of a `max` fold bounds the result from below. -/
theorem foldl_max_init_le (l : List ℚ) (init : ℚ) : init ≤ l.foldl max init := by
  induction l generalizing init with
  | nil => exact le_refl _
  | cons a l2 ih => exact le_trans (le_max_left init a) (ih (max init a))

/-- Every member of the list is bounded by the `max` fold. -/
theorem le_foldl_max (l : List ℚ) (init : ℚ) (x : ℚ) (hx : x ∈ l) :
    x ≤ l.foldl max init := by
  induction l generalizing init with
  | nil => cases hx
  | cons a l2 ih =>
    rcases List.mem_cons.mp hx with hxa | hxl
    · subst hxa
      exact le_trans (le_max_right init x) (foldl_max_init_le l2 (max init x))
    · exact ih (max init a) hxl

/-- A `max` fold returns its seed or one of the list's members. -/
theorem foldl_max_mem (l : List ℚ) (init : ℚ) :
    l.foldl max init = init ∨ l.foldl max init ∈ l := by
  induction l generalizing init with
  | nil => exact Or.inl rfl
  | cons a l2 ih =>
    rcases ih (max init a) with h0 | hmem
    · rcases max_choice init a with hm | hm
      · exact Or.inl (by rw [List.foldl_cons, h0, hm])
      · exact Or.inr (by rw [List.foldl_cons, h0, hm]; exact List.mem_cons_self a l2)
    · exact Or.inr (List.mem_cons_of_mem a hmem)

/-- C4 (amended): every successfully loaded dataset has its events sorted
non-decreasing by time, and (when non-empty) `min_time` equal to the first
sorted event's time; `max_time` is the fold of `max` seeded at `0` over
`time + duration`: it bounds every event's end and equals either `0` or
some event's end -- for datasets whose events all end before time `0` it
is `0`, not the true maximum of `time + duration`. -/
theorem loadFromDir_invariants (entries : List DirEntry) (pd : ProfileData)
    (h : loadFromDir entries = .ok pd) :
    pd.events.Pairwise timeLE ∧
    (∀ hne : pd.events ≠ [], pd.min_time = (pd.events.head hne).raw.time) ∧
    (∀ e ∈ pd.events, e.raw.time + e.raw.duration_sec ≤ pd.max_time) ∧
    (pd.max_time = 0 ∨ ∃ e ∈ pd.events, pd.max_time = e.raw.time + e.raw.duration_sec) := by
  unfold loadFromDir at h
  cases hp : processEntries entries [] 0 [] with
  | error err =>
    rw [hp] at h
    cases h
  | ok t =>
    rw [hp] at h
    obtain ⟨evs, maxPe, hosts⟩ := t
    dsimp only at h
    injection h with h2
    subst h2
    dsimp only
    refine ⟨List.sorted_insertionSort timeLE evs, ?_, ?_, ?_⟩
    · intro hne
      rw [List.head?_eq_head hne]
      rfl
    · intro e he
      exact le_foldl_max _ 0 _ (List.mem_map_of_mem _ he)
    · rcases foldl_max_mem ((List.insertionSort timeLE evs).map
        (fun e => e.raw.time + e.raw.duration_sec)) 0 with h0 | hmem
      · exact Or.inl h0
      · obtain ⟨e, he, hfe⟩ := List.mem_map.mp hmem
        exact Or.inr ⟨e, he, hfe.symm⟩

unseal Rat.add Rat.mul Rat.inv Rat.sub in
/-- C4 counterexample: `negDir` loads successfully into `negPD`, whose
single event ends at `-1`, yet `max_time` is `0` (the fold over
`time + duration` is seeded at `0.0`), so `max_time` is not the maximum
of `time + duration` over the events. -/
theorem loadFromDir_negative_counterexample :
    loadFromDir negDir = .ok negPD ∧
    (negPD.events.map (fun e => e.raw.time + e.raw.duration_sec)) = [-1] ∧
    negPD.max_time = 0 ∧ (0 : ℚ) ≠ -1 := by
  refine ⟨by decide, by decide, by decide, by decide⟩

unseal Rat.add Rat.mul Rat.inv Rat.sub in
/-- Witness for C4 (amended) on the concrete directory `sampleDir`,
which loads into `samplePD`. -/
theorem loadFromDir_invariants_witness :
    samplePD.events.Pairwise timeLE ∧
    (∀ hne : samplePD.events ≠ [], samplePD.min_time = (samplePD.events.head hne).raw.time) ∧
    (∀ e ∈ samplePD.events, e.raw.time + e.raw.duration_sec ≤ samplePD.max_time) ∧
    (samplePD.max_time = 0 ∨
      ∃ e ∈ samplePD.events, samplePD.max_time = e.raw.time + e.raw.duration_sec) :=
  loadFromDir_invariants sampleDir samplePD (by decide)

/-- Correctness of the `partition_point` binary search on `[lo, hi)`: if
the predicate holds exactly below the split index `k`, the search finds
`k`. -/
theorem ppAux_spec :
    ∀ (n : ℕ) (pred : Event → Bool) (l : List Event) (lo hi k : ℕ),
      hi - lo ≤ n → lo ≤ k → k ≤ hi → hi ≤ l.length →
      (∀ i, lo ≤ i → i < k → pred (l.getD i default) = true) →
      (∀ i, k ≤ i → i < hi → pred (l.getD i default) = false) →
      ppAux pred l lo hi = k := by
  intro n
  induction n with
  | zero =>
    intro pred l lo hi k hn hlo hk hhi h1 h2
    unfold ppAux
    rw [if_neg (by omega)]
    omega
  | succ n ih =>
    intro pred l lo hi k hn hlo hk hhi h1 h2
    unfold ppAux
    by_cases hlh : lo < hi
    · rw [if_pos hlh]
      dsimp only
      by_cases hp : pred (l.getD ((lo + hi) / 2) default) = true
      · rw [if_pos hp]
        have hmk : (lo + hi) / 2 < k := by
          by_contra hc
          push_neg at hc
          have := h2 ((lo + hi) / 2) hc (by omega)
          rw [hp] at this
          cases this
        exact ih pred l ((lo + hi) / 2 + 1) hi k (by omega) (by omega) hk hhi
          (fun i hi1 hi2 => h1 i (by omega) hi2) h2
      · rw [if_neg hp]
        have hkm : k ≤ (lo + hi) / 2 := by
          by_contra hc
          push_neg at hc
          have := h1 ((lo + hi) / 2) (by omega) hc
          exact hp this
        exact ih pred l lo ((lo + hi) / 2) k (by omega) hlo hkm (by omega) h1
          (fun i hi1 hi2 => h2 i hi1 (by omega))
    · rw [if_neg hlh]
      omega

/-- Indices inside the `takeWhile` run satisfy the predicate. -/
theorem takeWhile_getD_true (p : Event → Bool) (l : List Event) (i : ℕ)
    (hi : i < (l.takeWhile p).length) : p (l.getD i default) = true := by
  induction l generalizing i with
  | nil => simp [List.takeWhile] at hi
  | cons a l2 ih =>
    by_cases hp : p a = true
    · rw [List.takeWhile_cons_of_pos hp] at hi
      cases i with
      | zero => simpa [List.getD_cons_zero] using hp
      | succ j =>
        rw [List.length_cons] at hi
        rw [List.getD_cons_succ]
        exact ih j (by omega)
    · rw [List.takeWhile_cons_of_neg (by simpa using hp)] at hi
      simp at hi

/-- The first index past the `takeWhile` run fails the predicate. -/
theorem takeWhile_length_getD_false (p : Event → Bool) (l : List Event)
    (hlt : (l.takeWhile p).length < l.length) :
    p (l.getD (l.takeWhile p).length default) = false := by
  induction l with
  | nil => simp at hlt
  | cons a l2 ih =>
    by_cases hp : p a = true
    · rw [List.takeWhile_cons_of_pos hp] at hlt ⊢
      simp only [List.length_cons] at hlt ⊢
      rw [List.getD_cons_succ]
      exact ih (by omega)
    · rw [List.takeWhile_cons_of_neg (by simpa using hp)]
      rw [List.length_nil, List.getD_cons_zero]
      simpa using hp

/-- Dropping the `takeWhile` run is `dropWhile`. -/
theorem drop_takeWhile_length (p : Event → Bool) (l : List Event) :
    l.drop (l.takeWhile p).length = l.dropWhile p := by
  induction l with
  | nil => rfl
  | cons a l2 ih =>
    by_cases hp : p a = true
    · rw [List.takeWhile_cons_of_pos hp, List.dropWhile_cons_of_pos hp,
        List.length_cons, List.drop_succ_cons]
      exact ih
    · rw [List.takeWhile_cons_of_neg (by simpa using hp),
        List.dropWhile_cons_of_neg (by simpa using hp), List.length_nil, List.drop_zero]

/-- In-range `getD` produces a member of the list. -/
theorem getD_mem_of_lt (l : List Event) (n : ℕ) (h : n < l.length) :
    l.getD n default ∈ l := by
  induction l generalizing n with
  | nil => simp at h
  | cons a l2 ih =>
    cases n with
    | zero => rw [List.getD_cons_zero]; exact List.mem_cons_self a l2
    | succ j =>
      rw [List.getD_cons_succ]
      exact List.mem_cons_of_mem a (ih j (by simpa using Nat.lt_of_succ_lt_succ (by simpa using h)))

/-- On a time-sorted list, every index at or past the `time < s` prefix
fails the `time < s` test. -/
theorem sorted_getD_not_lt (s : ℚ) (l : List Event) (hs : l.Pairwise timeLE) (i : ℕ)
    (hki : (l.takeWhile (fun e => decide (e.raw.time < s))).length ≤ i) (hil : i < l.length) :
    (fun e => decide (e.raw.time < s)) (l.getD i default) = false := by
  induction l generalizing i with
  | nil => simp at hil
  | cons a l2 ih =>
    have hpc := List.pairwise_cons.mp hs
    by_cases hp : a.raw.time < s
    · rw [List.takeWhile_cons_of_pos (by simpa using hp)] at hki
      simp only [List.length_cons] at hki hil
      cases i with
      | zero => omega
      | succ j =>
        rw [List.getD_cons_succ]
        exact ih hpc.2 j (by omega) (by omega)
    · cases i with
      | zero =>
        rw [List.getD_cons_zero]
        simpa using hp
      | succ j =>
        rw [List.getD_cons_succ]
        simp only [List.length_cons] at hil
        have hmem := getD_mem_of_lt l2 j (by omega)
        have hrel := hpc.1 _ hmem
        have : ¬ (l2.getD j default).raw.time < s := by
          have hns : s ≤ a.raw.time := not_lt.mp hp
          exact not_lt.mpr (le_trans hns hrel)
        simpa using this

/-- The binary-search lower bound equals the linear-scan reference (the
length of the `time < s` prefix) on every time-sorted list. -/
theorem partitionPoint_sorted (s : ℚ) (l : List Event) (hs : l.Pairwise timeLE) :
    partitionPoint (fun e => decide (e.raw.time < s)) l =
      (l.takeWhile (fun e => decide (e.raw.time < s))).length := by
  unfold partitionPoint
  have hk : (l.takeWhile (fun e => decide (e.raw.time < s))).length ≤ l.length :=
    List.Sublist.length_le (List.takeWhile_sublist _)
  exact ppAux_spec l.length _ l 0 l.length _ (by omega) (by omega) hk (le_refl _)
    (fun i _ h2 => takeWhile_getD_true _ l i h2)
    (fun i h1 h2 => sorted_getD_not_lt s l hs i h1 h2)

/-- Every member of the dropped suffix has `time >= s`. -/
theorem dropWhile_lower (s : ℚ) (l : List Event) (hs : l.Pairwise timeLE) :
    ∀ e ∈ l.dropWhile (fun e => decide (e.raw.time < s)), s ≤ e.raw.time := by
  induction l with
  | nil => simp [List.dropWhile]
  | cons a l2 ih =>
    intro e he
    have hpc := List.pairwise_cons.mp hs
    by_cases hp : a.raw.time < s
    · rw [List.dropWhile_cons_of_pos (by simpa using hp)] at he
      exact ih hpc.2 e he
    · rw [List.dropWhile_cons_of_neg (by simpa using hp)] at he
      rcases List.mem_cons.mp he with rfl | hm
      · exact not_lt.mp hp
      · exact le_trans (not_lt.mp hp) (hpc.1 e hm)

/-- On a time-sorted list, filtering by `time <= t` is the same as taking
the `time <= t` prefix. -/
theorem sorted_filter_eq_takeWhile (t : ℚ) (l : List Event) (hs : l.Pairwise timeLE) :
    l.filter (fun e => decide (e.raw.time ≤ t)) =
      l.takeWhile (fun e => decide (e.raw.time ≤ t)) := by
  induction l with
  | nil => rfl
  | cons a l2 ih =>
    have hpc := List.pairwise_cons.mp hs
    by_cases hp : a.raw.time ≤ t
    · rw [List.filter_cons_of_pos (by simpa using hp),
        List.takeWhile_cons_of_pos (by simpa using hp)]
      rw [ih hpc.2]
    · rw [List.filter_cons_of_neg (by simpa using hp),
        List.takeWhile_cons_of_neg (by simpa using hp)]
      rw [List.filter_eq_nil_iff]
      intro b hb
      have : t < b.raw.time := lt_of_lt_of_le (not_le.mp hp) (hpc.1 b hb)
      simpa using not_le.mpr this

/-- C5: on every time-sorted event list, the window query returns exactly
the events with `time` in `[center - width/2, center + width/2]`, in
order (equivalently, the filter of the list by that interval -- a
contiguous run, with nothing outside the interval); and the
binary-search lower bound equals the linear-scan reference, the length of
the `time < center - width/2` prefix. -/
theorem windowSlice_spec (events : List Event) (center width : ℚ)
    (hs : events.Pairwise timeLE) :
    windowSlice events center width =
      events.filter (fun e =>
        decide (center - width / 2 ≤ e.raw.time) && decide (e.raw.time ≤ center + width / 2)) ∧
    partitionPoint (fun e => decide (e.raw.time < center - width / 2)) events =
      (events.takeWhile (fun e => decide (e.raw.time < center - width / 2))).length := by
  have hpp := partitionPoint_sorted (center - width / 2) events hs
  refine ⟨?_, hpp⟩
  unfold windowSlice
  dsimp only
  rw [hpp, drop_takeWhile_length]
  have hq : (fun e : Event => ! decide (e.raw.time > center + width / 2)) =
      (fun e : Event => decide (e.raw.time ≤ center + width / 2)) := by
    funext e
    rw [← decide_not]
    exact decide_eq_decide.mpr not_lt
  rw [hq]
  conv_rhs =>
    rw [← List.takeWhile_append_dropWhile
      (p := fun e : Event => decide (e.raw.time < center - width / 2)) (l := events)]
  rw [List.filter_append]
  have hA : (events.takeWhile (fun e => decide (e.raw.time < center - width / 2))).filter
      (fun e =>
        decide (center - width / 2 ≤ e.raw.time) && decide (e.raw.time ≤ center + width / 2)) = [] := by
    rw [List.filter_eq_nil_iff]
    intro a ha
    have hpa : a.raw.time < center - width / 2 := by
      simpa using List.mem_takeWhile_imp ha
    simp [not_le.mpr hpa]
  rw [hA, List.nil_append]
  have hsB : (events.dropWhile (fun e => decide (e.raw.time < center - width / 2))).Pairwise
      timeLE :=
    List.Pairwise.sublist (List.dropWhile_sublist _) hs
  have hcongr : (events.dropWhile (fun e => decide (e.raw.time < center - width / 2))).filter
        (fun e =>
          decide (center - width / 2 ≤ e.raw.time) && decide (e.raw.time ≤ center + width / 2)) =
      (events.dropWhile (fun e => decide (e.raw.time < center - width / 2))).filter
        (fun e => decide (e.raw.time ≤ center + width / 2)) := by
    apply List.filter_congr
    intro x hx
    have := dropWhile_lower (center - width / 2) events hs x hx
    simp [this]
  rw [hcongr]
  exact (sorted_filter_eq_takeWhile (center + width / 2) _ hsB).symm

unseal Rat.add Rat.mul Rat.inv Rat.sub in
/-- Witness for C5 on the sorted list `winEvents` with window center
`3/2` and width `1`. -/
theorem windowSlice_spec_witness :
    windowSlice winEvents (3/2) 1 =
      winEvents.filter (fun e =>
        decide ((3:ℚ)/2 - 1 / 2 ≤ e.raw.time) && decide (e.raw.time ≤ (3:ℚ)/2 + 1 / 2)) ∧
    partitionPoint (fun e => decide (e.raw.time < (3:ℚ)/2 - 1 / 2)) winEvents =
      (winEvents.takeWhile (fun e => decide (e.raw.time < (3:ℚ)/2 - 1 / 2))).length :=
  windowSlice_spec winEvents (3/2) 1 (by decide)
